import Mathlib

/-!
Verification of the pairwise test-case generator.

The UI layer (`main.py`) is embedded directly from the source.  Python
strings are modelled as lists of characters (`PStr`) so that `str.strip`
and `str.split(',')` have explicit, provable definitions (`trim`,
`splitComma`) with the same behaviour.  The combinatorial core
(`algo.find_minimum_test_suite`, `algo.count_unique_pairs`) is not part of
the supplied sources; those definitions are modelled from the
specification and are marked as such in their doc comments.
-/

/-- Python strings, modelled as lists of characters. -/
abbrev PStr := List Char

/-- Whitespace test used by Python `str.strip()`. -/
def isWS (c : Char) : Bool := c.isWhitespace

/-- Python `s.strip()`: drop whitespace from both ends. -/
def trim (s : PStr) : PStr := ((s.dropWhile isWS).reverse.dropWhile isWS).reverse

/-- Python `s.split(',')`: split into comma-separated segments, keeping
empty segments (e.g. `"a,,b,"` gives `["a", "", "b", ""]`). -/
def splitComma : PStr → List PStr
  | [] => [[]]
  | c :: rest =>
      match splitComma rest with
      | [] => [[]]
      | g :: gs => if c = ',' then [] :: g :: gs else (c :: g) :: gs

/-- The parameter set held in `st.session_state.parameters`: an ordered
association list of parameter name to list of values (Python dicts keep
insertion order). -/
abbrev ParamSet := List (PStr × List PStr)

/-- Shorthand to write a `PStr` from a string literal. -/
def pstr (s : String) : PStr := s.toList

/-- The cleaned value list of `main.py` line 29:
`[v.strip() for v in values.split(',') if v.strip()]`. -/
def cleanedValues (values : PStr) : List PStr :=
  ((splitComma values).map trim).filter (fun v => decide (v ≠ []))

/-- `validate_parameter_name` from `main.py` lines 15-21. -/
def validate_parameter_name (name : PStr) (params : ParamSet) : Bool × String :=
  if name = [] ∨ trim name = [] then (false, "Parameter name cannot be empty")
  else if trim name ∈ params.map Prod.fst then (false, "Parameter name already exists")
  else (true, "")

/-- `validate_parameter_values` from `main.py` lines 23-43.  The Python
duplicate check `len(values_list) != len(set(values_list))` is expressed
as the negation of `List.Nodup`. -/
def validate_parameter_values (values : PStr) : Bool × List PStr × String :=
  if values = [] ∨ trim values = [] then (false, [], "Values cannot be empty")
  else if cleanedValues values = [] then (false, [], "No valid values provided")
  else if ¬ (cleanedValues values).Nodup then (false, [], "Duplicate values are not allowed")
  else if (cleanedValues values).length < 2 then
    (false, [], "At least 2 values are required for each parameter")
  else (true, cleanedValues values, "")

/-- The default parameter set of `initialize_session_state` (`main.py`
lines 5-13). -/
def defaultParameters : ParamSet :=
  [ (pstr "Display Mode", [pstr "Full Graph", pstr "Text Only", pstr "Limited-Bandwidth"]),
    (pstr "Language", [pstr "English", pstr "French", pstr "Spanish", pstr "Turkish"]),
    (pstr "Fonts", [pstr "Minimal", pstr "Standard", pstr "Document-loaded"]),
    (pstr "Color", [pstr "Monochrome", pstr "Colormap", pstr "16-bit", pstr "True Color"]),
    (pstr "Screen Size", [pstr "Hand-held", pstr "laptop", pstr "fullsize"]) ]

/-- `initialize_session_state` (`main.py` lines 5-13): install the default
parameters only when no parameter set exists yet. -/
def initialize_session_state : Option ParamSet → ParamSet
  | none => defaultParameters
  | some P => P

/-- Python dict assignment `parameters[k] = v`: replace the value of an
existing key in place, otherwise append the new key at the end
(insertion order is preserved). -/
def dict_set (P : ParamSet) (k : PStr) (v : List PStr) : ParamSet :=
  if k ∈ P.map Prod.fst then P.map (fun q => if q.1 = k then (k, v) else q)
  else P ++ [(k, v)]

/-- The Add-Parameter handler (`main.py` lines 68-80): validate the name,
then the values, and only then store `parameters[new_param.strip()] =
values_list`.  Returns the new state and the error message shown. -/
def add_parameter (P : ParamSet) (name values : PStr) : ParamSet × String :=
  match validate_parameter_name name P with
  | (false, err) => (P, err)
  | (true, _) =>
      match validate_parameter_values values with
      | (false, _, err) => (P, err)
      | (true, values_list, _) => (dict_set P (trim name) values_list, "")

/-- The Update handler (`main.py` lines 106-113): validate the new values
and store them under the existing key. -/
def update_parameter (P : ParamSet) (param values : PStr) : ParamSet × String :=
  match validate_parameter_values values with
  | (false, _, err) => (P, err)
  | (true, values_list, _) => (dict_set P param values_list, "")

/-- The Delete handler (`main.py` lines 115-123): refuse when at most 2
parameters remain, otherwise remove the key.  Returns the new state and
the error message, if any. -/
def delete_parameter (P : ParamSet) (param : PStr) : ParamSet × Option String :=
  if P.length ≤ 2 then (P, some "Cannot delete: minimum 2 parameters required")
  else (P.eraseP (fun q => decide (q.1 = param)), none)

/-- The parameter-set invariant of the spec (section 3): unique names,
and each domain has at least 2 pairwise-distinct values. -/
abbrev ParamInvariant (P : ParamSet) : Prop :=
  (P.map Prod.fst).Nodup ∧ ∀ p ∈ P, 2 ≤ p.2.length ∧ p.2.Nodup

/-- One row of the results table (`main.py` line 176):
`[f"Test {i}"] + list(test) + [new_unique_counts[i-1]]`. -/
abbrev Row := String × List PStr × Nat

/-- The loop of `main.py` lines 175-177, carrying the 0-based index. -/
def table_rows (counts : List Nat) : Nat → List (List PStr) → List Row
  | _, [] => []
  | i, t :: rest =>
      ("Test " ++ toString (i + 1), t, counts.getD i 0) :: table_rows counts (i + 1) rest

/-- `table_data` of `main.py` lines 172-177: one row per test case, in
suite order. -/
def table_data (tests : List (List PStr)) (counts : List Nat) : List Row :=
  table_rows counts 0 tests

/-- An assignment: a parameter name paired with one of its values
(spec section 3). -/
abbrev Assign := PStr × PStr

/-- A pair of assignments of two distinct parameters.  The required-pair
universe stores each pair once, ordered by parameter-declaration index;
pair identity is independent of that order (see `samePair`). -/
abbrev Pair := Assign × Assign

/-- A test case: one assignment per parameter, in declaration order. -/
abbrev TestCase := List Assign

instance decEqAssign : DecidableEq Assign := fun a b => by infer_instance

instance decEqPair : DecidableEq Pair := fun a b => by infer_instance

instance decEqTestCase : DecidableEq TestCase := fun a b => by infer_instance

/-- Pair identity (spec section 3): a pair is identified by its two
(parameter, value) members, independent of order. -/
def samePair (a b : Pair) : Bool :=
  decide (a = b) || (decide (a.1 = b.2) && decide (a.2 = b.1))

/-- Membership in a pair list, up to `samePair` identity. -/
def memPair (u : Pair) (l : List Pair) : Bool := l.any (fun w => samePair u w)

/-- Modelled from the spec: all required pairs between the values `vs` of
the parameter named `n1` and the values of a later parameter `q`
(PairEnumerator, spec sections 3 and 4.1; `algo.py` is not in the
supplied sources). -/
def pairsFromVals (n1 : PStr) (vs : List PStr) (q : PStr × List PStr) : List Pair
  := match vs with
  | [] => []
  | v :: rest => q.2.map (fun w => ((n1, v), (q.1, w))) ++ pairsFromVals n1 rest q

/-- Modelled from the spec: all required pairs between two distinct
parameters (spec section 3). -/
def pairsOfTwo (p q : PStr × List PStr) : List Pair := pairsFromVals p.1 p.2 q

/-- Modelled from the spec: all required pairs between parameter `p` and
every parameter declared after it. -/
def crossPairs (p : PStr × List PStr) : ParamSet → List Pair
  | [] => []
  | q :: rest => pairsOfTwo p q ++ crossPairs p rest

/-- Modelled from the spec: the full required-pair universe — one entry
per unordered pair of distinct parameters and per choice of a value from
each domain (PairEnumerator, spec sections 3 and 4.1). -/
def requiredPairs : ParamSet → List Pair
  | [] => []
  | p :: rest => crossPairs p rest ++ requiredPairs rest

/-- The spec's size formula for the pair universe, written from the
spec's words for comparison with `requiredPairs`:
`Σ over all i < j of |domain(Pi)| * |domain(Pj)|` (spec sections 3
and 8). -/
def specPairCount : ParamSet → Nat
  | [] => 0
  | p :: rest => (rest.map (fun q => p.2.length * q.2.length)).sum + specPairCount rest

/-- No two entries of a pair list denote the same unordered pair. -/
def noDupPair : List Pair → Bool
  | [] => true
  | u :: rest => rest.all (fun w => !(samePair u w)) && noDupPair rest

/-- All pairs covered by a test case: every 2-parameter sub-assignment
(spec section 3, TestCase). -/
def assignPairs : List Assign → List Pair
  | [] => []
  | a :: rest => rest.map (fun b => (a, b)) ++ assignPairs rest

/-- Does test case `t` cover pair `u`? -/
def coversPair (t : TestCase) (u : Pair) : Bool :=
  (assignPairs t).any (fun w => samePair u w)

/-- Modelled from the spec: the number of currently uncovered pairs the
partial assignment `chosen ++ [a]` would newly cover — the uncovered
pairs formed between `a` and the values already chosen earlier in this
candidate (spec section 4.2 step 1). -/
def countNew (uncovered : List Pair) (chosen : List Assign) (a : Assign) : Nat :=
  (chosen.filter (fun c => memPair (c, a) uncovered)).length

/-- Modelled from the spec: the number of currently uncovered pairs the
assignment `a` participates in. -/
def countPart (uncovered : List Pair) (a : Assign) : Nat :=
  (uncovered.filter (fun u => decide (u.1 = a) || decide (u.2 = a))).length

/-- Modelled from the spec: the greedy score of choosing value `v` for
parameter `nm` (spec section 4.2 step 1).  For parameters after the
first, this is the number of currently uncovered pairs newly covered
through interaction with the values already chosen in this candidate.
For the first parameter there are no earlier choices; the spec's
termination argument (section 4.2 step 4) presupposes that candidates
can select any value of any parameter, so the first choice scores a
value by the number of uncovered pairs it participates in. -/
def valueScore (uncovered : List Pair) (chosen : List Assign) (nm : PStr) (v : PStr) : Nat :=
  match chosen with
  | [] => countPart uncovered (nm, v)
  | _ :: _ => countNew uncovered chosen (nm, v)

/-- Modelled from the spec: pick the value of the domain `vs` with the
maximal greedy score; ties are broken by the value's position in the
declared domain order, first-declared wins (spec section 4.2 step 1). -/
def pickValue (uncovered : List Pair) (chosen : List Assign) (nm : PStr) (vs : List PStr) : PStr :=
  match vs with
  | [] => []
  | v :: rest =>
      rest.foldl
        (fun best w =>
          if valueScore uncovered chosen nm w > valueScore uncovered chosen nm best then w
          else best)
        v

/-- Modelled from the spec: build one candidate test case, choosing a
value for each parameter in declaration order (spec section 4.2 steps
1-2). -/
def buildAssigns (uncovered : List Pair) (chosen : List Assign) : ParamSet → List Assign
  | [] => []
  | p :: rest =>
      let v := pickValue uncovered chosen p.1 p.2
      (p.1, v) :: buildAssigns uncovered (chosen ++ [(p.1, v)]) rest

/-- Modelled from the spec: the greedy loop (spec section 4.2 steps 3-4).
Each round appends one candidate and removes the pairs it covers from
the uncovered list; the fuel is the safety bound (total number of
required pairs), and exhausting it without full coverage is the fatal
internal-consistency failure, reported as `none`. -/
def buildLoop (ps : ParamSet) : Nat → List Pair → List TestCase → Option (List TestCase)
  | 0, uncovered, acc => if uncovered = [] then some acc.reverse else none
  | fuel + 1, uncovered, acc =>
      if uncovered = [] then some acc.reverse
      else
        let cand := buildAssigns uncovered [] ps
        buildLoop ps fuel (uncovered.filter (fun u => !(coversPair cand u))) (cand :: acc)

/-- Modelled from the spec: `EnumerateAndBuild` / `find_minimum_test_suite`
(spec sections 4.1-4.2 and 6).  Rejects precondition violations (fewer
than 2 parameters, or a domain with fewer than 2 values) and otherwise
runs the greedy loop with the safety bound. -/
def find_minimum_test_suite (ps : ParamSet) : Option (List TestCase × List Pair) :=
  if 2 ≤ ps.length ∧ ∀ p ∈ ps, 2 ≤ p.2.length then
    (buildLoop ps (requiredPairs ps).length (requiredPairs ps) []).map
      (fun s => (s, requiredPairs ps))
  else none

/-- One step of the coverage fold: record pair `u` and count it as new
unless an identical pair was already seen. -/
def coverStep (s : List Pair × Nat) (u : Pair) : List Pair × Nat :=
  if memPair u s.1 then s else (s.1 ++ [u], s.2 + 1)

/-- Modelled from the spec: `AnalyzeCoverage` / `count_unique_pairs`
(spec section 4.3).  Walks the suite in order, attributing every pair to
the first test case that covers it; returns the covered-pair set, the
per-test pair lists, and the per-test new-unique counts. -/
def analyzeAux : List TestCase → List Pair → List Pair × List (List Pair) × List Nat
  | [], seen => (seen, [], [])
  | t :: rest, seen =>
      let tp := assignPairs t
      let step := tp.foldl coverStep (seen, 0)
      let r := analyzeAux rest step.1
      (r.1, tp :: r.2.1, step.2 :: r.2.2)

/-- Modelled from the spec: the `count_unique_pairs` entry point with the
call-site signature of `main.py` line 153. -/
def count_unique_pairs (tests : List TestCase) (allPairs : List Pair) (ps : ParamSet) :
    List Pair × List (List Pair) × List Nat :=
  analyzeAux tests []

/-- The covered-pair set of a suite equals the required-pair universe,
as sets of unordered pairs. -/
def coversExactly (tests : List TestCase) (req : List Pair) (ps : ParamSet) : Bool :=
  ((count_unique_pairs tests req ps).1.all (fun u => memPair u req)) &&
    (req.all (fun u => memPair u (count_unique_pairs tests req ps).1))

/-- A valid parameter set (spec sections 3 and 8): at least 2 parameters,
unique names, and each domain with at least 2 distinct values. -/
abbrev ValidParams (ps : ParamSet) : Prop :=
  2 ≤ ps.length ∧ (ps.map Prod.fst).Nodup ∧ ∀ p ∈ ps, 2 ≤ p.2.length ∧ p.2.Nodup

/-- Outcome of the Generate-Test-Cases flow of `main.py` lines 134-189. -/
inductive GenResult where
  | invalidValues : List PStr → GenResult
  | tooFewParams : GenResult
  | noSuite : GenResult
  | success : List TestCase → List Pair → List Pair → List (List Pair) → List Nat → GenResult

/-- The Generate-Test-Cases flow (`main.py` lines 134-189): report the
parameters with fewer than 2 values, then the parameter-count
precondition, and only then invoke the generator and, on a non-empty
suite, the coverage analysis. -/
def generate_flow (ps : ParamSet) : GenResult :=
  let invalid := (ps.filter (fun p => decide (p.2.length < 2))).map Prod.fst
  if invalid ≠ [] then GenResult.invalidValues invalid
  else if ps.length < 2 then GenResult.tooFewParams
  else
    match find_minimum_test_suite ps with
    | none => GenResult.noSuite
    | some (tests, allp) =>
        if tests = [] then GenResult.noSuite
        else
          let r := count_unique_pairs tests allp ps
          GenResult.success tests allp r.1 r.2.1 r.2.2

/-- Does the flow stop with one of the two precondition errors of
`main.py` lines 141-147, before the generator is invoked? -/
def isPreconditionError : GenResult → Bool
  | GenResult.invalidValues _ => true
  | GenResult.tooFewParams => true
  | GenResult.noSuite => false
  | GenResult.success _ _ _ _ _ => false

/-- A test case is aligned with a parameter set: one assignment per
parameter, in declaration order, whose value belongs to the parameter's
domain. -/
inductive Aligned : ParamSet → List Assign → Prop where
  | nil : Aligned [] []
  | cons {p : PStr × List PStr} {rest : ParamSet} {v : PStr} {t : List Assign} :
      v ∈ p.2 → Aligned rest t → Aligned (p :: rest) ((p.1, v) :: t)

/-- A concrete 2x2 parameter set used in the closed evaluation lemmas. -/
def wps : ParamSet := [([ 'A' ], [[ 'a' ], [ 'b' ]]), ([ 'B' ], [[ 'x' ], [ 'y' ]])]

/-- The suite the modelled generator produces on `wps`. -/
def wSuite : List TestCase :=
  [ [([ 'A' ], [ 'a' ]), ([ 'B' ], [ 'x' ])],
    [([ 'A' ], [ 'b' ]), ([ 'B' ], [ 'x' ])],
    [([ 'A' ], [ 'a' ]), ([ 'B' ], [ 'y' ])],
    [([ 'A' ], [ 'b' ]), ([ 'B' ], [ 'y' ])] ]

/-! ### Basic lemmas about pair identity -/

theorem samePair_true_iff (a b : Pair) :
    samePair a b = true ↔ (a = b ∨ (a.1 = b.2 ∧ a.2 = b.1)) := by
  simp [samePair]

theorem samePair_refl (u : Pair) : samePair u u = true := by
  simp [samePair]

theorem samePair_trans {a b c : Pair} (h1 : samePair a b = true)
    (h2 : samePair b c = true) : samePair a c = true := by
  rw [samePair_true_iff] at h1 h2 ⊢
  rcases h1 with h | ⟨h1a, h1b⟩ <;> rcases h2 with g | ⟨g1, g2⟩
  · exact Or.inl (h.trans g)
  · subst h; exact Or.inr ⟨g1, g2⟩
  · subst g; exact Or.inr ⟨h1a, h1b⟩
  · exact Or.inl (Prod.ext (h1a.trans g2) (h1b.trans g1))

theorem memPair_iff (u : Pair) (l : List Pair) :
    memPair u l = true ↔ ∃ w ∈ l, samePair u w = true := by
  simp [memPair, List.any_eq_true]

theorem memPair_of_mem {u : Pair} {l : List Pair} (h : u ∈ l) :
    memPair u l = true :=
  (memPair_iff u l).2 ⟨u, h, samePair_refl u⟩

theorem memPair_up {u w : Pair} {l : List Pair} (hs : samePair u w = true)
    (hm : memPair w l = true) : memPair u l = true := by
  obtain ⟨w2, hw2, hsw⟩ := (memPair_iff w l).1 hm
  exact (memPair_iff u l).2 ⟨w2, hw2, samePair_trans hs hsw⟩

/-! ### Lemmas about `trim` and `splitComma` -/

theorem trim_nil : trim [] = [] := rfl

theorem trim_eq_nil_iff (s : PStr) : trim s = [] ↔ ∀ c ∈ s, isWS c = true := by
  constructor
  · intro h c hc
    have h1 : (s.dropWhile isWS).reverse.dropWhile isWS = [] := by
      have := congrArg List.reverse h
      simpa [trim] using this
    have h2 : ∀ d ∈ s.dropWhile isWS, isWS d := by
      intro d hd
      exact List.dropWhile_eq_nil_iff.1 h1 d (List.mem_reverse.2 hd)
    have hsplit : s.takeWhile isWS ++ s.dropWhile isWS = s :=
      List.takeWhile_append_dropWhile isWS s
    rw [← hsplit] at hc
    rcases List.mem_append.1 hc with h3 | h3
    · exact List.mem_takeWhile_imp h3
    · exact h2 c h3
  · intro h
    have h1 : s.dropWhile isWS = [] :=
      List.dropWhile_eq_nil_iff.2 (fun c hc => h c hc)
    simp [trim, h1]

theorem splitComma_all_ws (s : PStr) (h : ∀ c ∈ s, isWS c = true) :
    splitComma s = [s] := by
  induction s with
  | nil => rfl
  | cons c rest ih =>
      have hc : isWS c = true := h c (List.mem_cons_self c rest)
      have hcomma : ¬ (c = ',') := by
        intro e
        rw [e] at hc
        exact absurd hc (by decide)
      have hr : splitComma rest = [rest] := ih (fun d hd => h d (List.mem_cons_of_mem c hd))
      simp [splitComma, hr, hcomma]

theorem cleaned_of_ws {s : PStr} (h : trim s = []) : cleanedValues s = [] := by
  have hall : ∀ c ∈ s, isWS c = true := (trim_eq_nil_iff s).1 h
  simp [cleanedValues, splitComma_all_ws s hall, h]

/-! ### Claims about the input validators -/

theorem validate_values_cases (values : PStr) :
    (cleanedValues values ≠ [] ∧ 2 ≤ (cleanedValues values).length ∧
      (cleanedValues values).Nodup ∧
      validate_parameter_values values = (true, cleanedValues values, ""))
    ∨ ((validate_parameter_values values).1 = false ∧
        (validate_parameter_values values).2.1 = [] ∧
        (validate_parameter_values values).2.2 ≠ "" ∧
        ¬ (2 ≤ (cleanedValues values).length ∧ (cleanedValues values).Nodup)) := by
  unfold validate_parameter_values
  split_ifs with h1 h2 h3 h4
  · refine Or.inr ⟨rfl, rfl, by decide, ?_⟩
    have hc : cleanedValues values = [] := by
      rcases h1 with h | h
      · rw [h]; rfl
      · exact cleaned_of_ws h
    rw [hc]
    simp
  · refine Or.inr ⟨rfl, rfl, by decide, ?_⟩
    rw [h2]
    simp
  · exact Or.inr ⟨rfl, rfl, by decide, fun h => absurd h.1 (by omega)⟩
  · exact Or.inl ⟨h2, by omega, h3, rfl⟩
  · exact Or.inr ⟨rfl, rfl, by decide, fun h => h3 h.2⟩

/-- Claim C5: `validate_parameter_values` succeeds if and only if the
comma-separated values, after trimming whitespace (with segments that
trim to nothing discarded, per `main.py` line 29), form a non-empty list
of at least 2 values with no duplicates; on success it returns exactly
those trimmed values in input order, and its error message is empty
exactly on success, the value list being empty on failure. -/
theorem validate_parameter_values_spec (values : PStr) :
    ((validate_parameter_values values).1 = true ↔
      cleanedValues values ≠ [] ∧ 2 ≤ (cleanedValues values).length ∧
        (cleanedValues values).Nodup)
    ∧ (validate_parameter_values values).2.1 =
        (if 2 ≤ (cleanedValues values).length ∧ (cleanedValues values).Nodup
         then cleanedValues values else [])
    ∧ ((validate_parameter_values values).2.2 = "" ↔
        (validate_parameter_values values).1 = true) := by
  rcases validate_values_cases values with ⟨hne, hlen, hnd, heq⟩ | ⟨hf, hl, he, hcond⟩
  · rw [heq]
    refine ⟨?_, ?_, ?_⟩
    · simp [hne, hlen, hnd]
    · simp [hlen, hnd]
    · simp
  · rw [hf] at *
    refine ⟨?_, ?_, ?_⟩
    · constructor
      · intro h; cases h
      · intro h
        exact absurd ⟨h.2.1, h.2.2⟩ hcond
    · rw [hl, if_neg hcond]
    · constructor
      · intro h; exact absurd h he
      · intro h; cases h
  
/-- Claim C6: `validate_parameter_name` fails exactly when the name is
empty or consists only of whitespace, or when its whitespace-trimmed
form equals an existing parameter name; its error message is empty
exactly when it succeeds. -/
theorem validate_parameter_name_spec (name : PStr) (P : ParamSet) :
    ((validate_parameter_name name P).1 = false ↔
      ((∀ c ∈ name, isWS c = true) ∨ trim name ∈ P.map Prod.fst))
    ∧ ((validate_parameter_name name P).2 = "" ↔
        (validate_parameter_name name P).1 = true) := by
  unfold validate_parameter_name
  split_ifs with h1 h2
  · refine ⟨?_, ?_⟩
    · have ht : trim name = [] := by
        rcases h1 with h | h
        · rw [h]; rfl
        · exact h
      constructor
      · intro _
        exact Or.inl ((trim_eq_nil_iff name).1 ht)
      · intro _
        rfl
    · simp
  · refine ⟨?_, ?_⟩
    · simp [h2]
    · simp
  · refine ⟨?_, ?_⟩
    · constructor
      · intro h; cases h
      · intro h
        rcases h with h | h
        · exact h1 (Or.inr ((trim_eq_nil_iff name).2 h))
        · exact h2 h
    · simp
  
/-- Claim C10: `validate_parameter_values` silently discards
comma-separated segments that are empty after trimming: on the input
`"a,,b,"` it succeeds and returns exactly the values `["a", "b"]` with
no error message. -/
theorem validate_discards_empty_segments :
    validate_parameter_values ([ 'a', ',', ',', 'b', ',' ]) =
      (true, [[ 'a' ], [ 'b' ]], "") := by
  decide

/-! ### Claims about the parameter-management handlers -/

theorem length_le_eraseP_succ {α : Type} (p : α → Bool) (l : List α) :
    l.length ≤ (l.eraseP p).length + 1 := by
  induction l with
  | nil => simp
  | cons a l ih =>
      rw [List.eraseP_cons]
      cases hp : p a
      · simpa using Nat.succ_le_succ ih
      · simp

/-- Claim C9: the Delete handler refuses to delete (reporting an error
and leaving the parameter set unchanged) whenever at most 2 parameters
remain, so deletion can never shrink the parameter set below 2
parameters. -/
theorem delete_parameter_spec (P : ParamSet) (param : PStr) :
    (P.length ≤ 2 →
      delete_parameter P param = (P, some "Cannot delete: minimum 2 parameters required"))
    ∧ (2 ≤ P.length → 2 ≤ (delete_parameter P param).1.length) := by
  constructor
  · intro h
    simp [delete_parameter, h]
  · intro h
    unfold delete_parameter
    split_ifs with h1
    · exact h
    · have h3 : 3 ≤ P.length := by omega
      have := length_le_eraseP_succ (fun q => decide (q.1 = param)) P
      simp only []
      omega

/-- Claim C9 witness: a concrete 2-parameter set, where deletion is
refused and the parameter count stays at 2. -/
theorem delete_parameter_spec_witness :
    (wps.length ≤ 2 ∧
      delete_parameter wps ([ 'A' ]) =
        (wps, some "Cannot delete: minimum 2 parameters required"))
    ∧ (2 ≤ wps.length ∧ 2 ≤ (delete_parameter wps ([ 'A' ])).1.length) :=
  ⟨⟨by decide, (delete_parameter_spec wps ([ 'A' ])).1 (by decide)⟩,
    ⟨by decide, (delete_parameter_spec wps ([ 'A' ])).2 (by decide)⟩⟩

theorem table_rows_length (counts : List Nat) :
    ∀ (tests : List (List PStr)) (i : Nat),
      (table_rows counts i tests).length = tests.length := by
  intro tests
  induction tests with
  | nil => intro i; rfl
  | cons t rest ih =>
      intro i
      simp [table_rows, ih (i + 1)]

theorem table_rows_get? (counts : List Nat) :
    ∀ (tests : List (List PStr)) (i j : Nat),
      (table_rows counts i tests).get? j =
        (tests.get? j).map
          (fun t => ("Test " ++ toString (i + j + 1), t, counts.getD (i + j) 0)) := by
  intro tests
  induction tests with
  | nil => intro i j; simp [table_rows]
  | cons t rest ih =>
      intro i j
      cases j with
      | zero => simp [table_rows]
      | succ j =>
          have harith : i + 1 + j = i + (j + 1) := by omega
          simp only [table_rows, List.get?_cons_succ]
          rw [ih (i + 1) j, harith]

/-- Claim C8: the rendered results table has exactly one row per test
case, in suite order: row `i` (0-indexed here) is the label `Test i+1`,
followed by the test case's values in order, followed by
`newUniqueCounts[i]`; nothing is re-sorted or deduplicated. -/
theorem table_data_spec (tests : List (List PStr)) (counts : List Nat) (i : Nat)
    (h : i < tests.length) :
    (table_data tests counts).length = tests.length ∧
    (table_data tests counts).get? i =
      some ("Test " ++ toString (i + 1), tests.getD i [], counts.getD i 0) := by
  refine ⟨table_rows_length counts tests 0, ?_⟩
  rw [table_data, table_rows_get? counts tests 0 i]
  have hg : tests.get? i = some (tests.getD i []) := by
    rw [List.getD_eq_getD_get?]
    cases hq : tests.get? i
    · exact absurd (List.get?_eq_none.1 hq) (by omega)
    · rfl
  rw [hg]
  simp

/-- Claim C8 witness: the table of a concrete 2-test suite. -/
theorem table_data_spec_witness :
    (1 < ([[[ 'a' ], [ 'x' ]], [[ 'b' ], [ 'y' ]]] : List (List PStr)).length) ∧
    (table_data [[[ 'a' ], [ 'x' ]], [[ 'b' ], [ 'y' ]]] [3, 1]).length = 2 ∧
    (table_data [[[ 'a' ], [ 'x' ]], [[ 'b' ], [ 'y' ]]] [3, 1]).get? 1 =
      some ("Test 2", [[ 'b' ], [ 'y' ]], 1) :=
  ⟨by decide,
    (table_data_spec [[[ 'a' ], [ 'x' ]], [[ 'b' ], [ 'y' ]]] [3, 1] 1 (by decide)).1,
    (table_data_spec [[[ 'a' ], [ 'x' ]], [[ 'b' ], [ 'y' ]]] [3, 1] 1 (by decide)).2⟩

/-! ### Claim about the generation flow's precondition checks -/

/-- Claim C2: whenever fewer than 2 parameters exist, or some parameter
has fewer than 2 values, the Generate-Test-Cases flow stops with one of
its two precondition errors — the generator is never invoked, so no
TestSuite and no coverage report is produced. -/
theorem generate_flow_precondition (ps : ParamSet)
    (h : ps.length < 2 ∨ ∃ p ∈ ps, p.2.length < 2) :
    isPreconditionError (generate_flow ps) = true := by
  unfold generate_flow
  by_cases hi : (ps.filter (fun p => decide (p.2.length < 2))).map Prod.fst ≠ []
  · simp only [if_pos hi]
    rfl
  · have hall : ∀ p ∈ ps, ¬ (p.2.length < 2) := by
      intro p hp hlt
      have hfil : p ∈ ps.filter (fun p => decide (p.2.length < 2)) :=
        List.mem_filter.2 ⟨hp, by simpa using hlt⟩
      exact hi (by simp [List.map_eq_nil_iff] at hi ⊢; exact absurd (hi p.1 p.2 hp) (by simpa using hlt))
    have hlen : ps.length < 2 := by
      rcases h with h | ⟨p, hp, hlt⟩
      · exact h
      · exact absurd hlt (hall p hp)
    simp only [if_neg hi, if_pos hlen]
    rfl

/-- Claim C2 witness: a single-parameter set is rejected before
generation. -/
theorem generate_flow_precondition_witness :
    (([([ 'A' ], [[ 'a' ], [ 'b' ]])] : ParamSet).length < 2 ∨
      ∃ p ∈ ([([ 'A' ], [[ 'a' ], [ 'b' ]])] : ParamSet), p.2.length < 2) ∧
    isPreconditionError (generate_flow [([ 'A' ], [[ 'a' ], [ 'b' ]])]) = true :=
  ⟨Or.inl (by decide),
    generate_flow_precondition [([ 'A' ], [[ 'a' ], [ 'b' ]])] (Or.inl (by decide))⟩

/-! ### Claim about the coverage analysis invariant -/

theorem coverStep_fold_length (tp : List Pair) :
    ∀ (s : List Pair) (c : Nat),
      (tp.foldl coverStep (s, c)).1.length + c =
        s.length + (tp.foldl coverStep (s, c)).2 := by
  induction tp with
  | nil => intro s c; simp
  | cons u tp ih =>
      intro s c
      simp only [List.foldl_cons]
      rw [show coverStep (s, c) u =
            if memPair u s then (s, c) else (s ++ [u], c + 1) from rfl]
      split_ifs with h
      · exact ih s c
      · have := ih (s ++ [u]) (c + 1)
        simp only [List.length_append, List.length_cons, List.length_nil] at this
        omega

theorem analyzeAux_length :
    ∀ (tests : List TestCase) (seen : List Pair),
      (analyzeAux tests seen).1.length =
        seen.length + ((analyzeAux tests seen).2.2).sum := by
  intro tests
  induction tests with
  | nil => intro seen; simp [analyzeAux]
  | cons t rest ih =>
      intro seen
      simp only [analyzeAux, List.sum_cons]
      have hfold := coverStep_fold_length (assignPairs t) seen 0
      have hrec := ih ((assignPairs t).foldl coverStep (seen, 0)).1
      omega

/-- Claim C3: for every TestSuite (and pair universe and parameter set),
the sum of the per-test new-unique counts produced by the coverage
analysis equals the size of the covered-pair set exactly — every covered
pair is counted once, by the first test case that covers it. -/
theorem count_unique_pairs_sum (tests : List TestCase) (allPairs : List Pair)
    (ps : ParamSet) :
    ((count_unique_pairs tests allPairs ps).2.2).sum =
      (count_unique_pairs tests allPairs ps).1.length := by
  unfold count_unique_pairs
  have := analyzeAux_length tests []
  simp only [List.length_nil, Nat.zero_add] at this
  omega

/-! ### Claim about the required-pair universe -/

theorem pairsFromVals_length (n1 : PStr) (q : PStr × List PStr) :
    ∀ vs : List PStr, (pairsFromVals n1 vs q).length = vs.length * q.2.length := by
  intro vs
  induction vs with
  | nil => simp [pairsFromVals]
  | cons v rest ih =>
      simp only [pairsFromVals, List.length_append, List.length_map, List.length_cons, ih]
      ring

theorem crossPairs_length (p : PStr × List PStr) :
    ∀ rest : ParamSet,
      (crossPairs p rest).length = (rest.map (fun q => p.2.length * q.2.length)).sum := by
  intro rest
  induction rest with
  | nil => simp [crossPairs]
  | cons q rest ih =>
      simp [crossPairs, pairsOfTwo, pairsFromVals_length, ih]

theorem requiredPairs_length :
    ∀ ps : ParamSet, (requiredPairs ps).length = specPairCount ps := by
  intro ps
  induction ps with
  | nil => rfl
  | cons p rest ih =>
      simp [requiredPairs, specPairCount, crossPairs_length, ih]

theorem mem_pairsFromVals {n1 : PStr} {q : PStr × List PStr} {u : Pair} :
    ∀ {vs : List PStr},
      u ∈ pairsFromVals n1 vs q ↔ ∃ v ∈ vs, ∃ w ∈ q.2, u = ((n1, v), (q.1, w)) := by
  intro vs
  induction vs with
  | nil => simp [pairsFromVals]
  | cons v rest ih =>
      simp only [pairsFromVals, List.mem_append, List.mem_map, ih, List.mem_cons]
      constructor
      · rintro (⟨w, hw, rfl⟩ | ⟨v2, hv2, w, hw, rfl⟩)
        · exact ⟨v, Or.inl rfl, w, hw, rfl⟩
        · exact ⟨v2, Or.inr hv2, w, hw, rfl⟩
      · rintro ⟨v2, hv2 | hv2, w, hw, rfl⟩
        · exact Or.inl ⟨w, hw, by rw [hv2]⟩
        · exact Or.inr ⟨v2, hv2, w, hw, rfl⟩

theorem mem_crossPairs {p : PStr × List PStr} {u : Pair} :
    ∀ {rest : ParamSet},
      u ∈ crossPairs p rest ↔ ∃ q ∈ rest, u ∈ pairsOfTwo p q := by
  intro rest
  induction rest with
  | nil => simp [crossPairs]
  | cons q rest ih =>
      simp only [crossPairs, List.mem_append, ih, List.mem_cons]
      constructor
      · rintro (h | ⟨q2, hq2, h⟩)
        · exact ⟨q, Or.inl rfl, h⟩
        · exact ⟨q2, Or.inr hq2, h⟩
      · rintro ⟨q2, hq2 | hq2, h⟩
        · exact Or.inl (by rw [← hq2]; exact h)
        · exact Or.inr ⟨q2, hq2, h⟩

theorem mem_requiredPairs_names {u : Pair} :
    ∀ {ps : ParamSet}, u ∈ requiredPairs ps →
      u.1.1 ∈ ps.map Prod.fst ∧ u.2.1 ∈ ps.map Prod.fst := by
  intro ps
  induction ps with
  | nil => simp [requiredPairs]
  | cons p rest ih =>
      intro hu
      rcases List.mem_append.1 hu with h | h
      · obtain ⟨q, hq, hpq⟩ := mem_crossPairs.1 h
        obtain ⟨v, _, w, _, rfl⟩ := mem_pairsFromVals.1 hpq
        refine ⟨by simp, ?_⟩
        simp only [List.map_cons, List.mem_cons]
        exact Or.inr (List.mem_map.2 ⟨q, hq, rfl⟩)
      · obtain ⟨h1, h2⟩ := ih h
        exact ⟨List.mem_cons_of_mem _ h1, List.mem_cons_of_mem _ h2⟩

theorem not_samePair_shape {n1 v q1 w1 m1 v2 q2 w2 : PStr}
    (heq : ¬ (n1 = m1 ∧ v = v2 ∧ q1 = q2 ∧ w1 = w2)) (hsw : ¬ n1 = q2) :
    ¬ samePair ((n1, v), (q1, w1)) ((m1, v2), (q2, w2)) = true := by
  intro hsp
  rcases (samePair_true_iff _ _).1 hsp with h | ⟨h1, h2⟩
  · simp only [Prod.mk.injEq] at h
    exact heq ⟨h.1.1, h.1.2, h.2.1, h.2.2⟩
  · simp only [Prod.mk.injEq] at h1
    exact hsw h1.1

theorem pairwise_pairsFromVals {n1 : PStr} {q : PStr × List PStr} (hne : ¬ n1 = q.1)
    (hq : q.2.Nodup) :
    ∀ {vs : List PStr}, vs.Nodup →
      List.Pairwise (fun a b => ¬ samePair a b = true) (pairsFromVals n1 vs q) := by
  intro vs
  induction vs with
  | nil =>
      intro _
      exact List.Pairwise.nil
  | cons v rest ih =>
      intro hvs
      rw [pairsFromVals, List.pairwise_append]
      refine ⟨?_, ih (List.nodup_cons.1 hvs).2, ?_⟩
      · refine List.Pairwise.map _ ?_ hq
        intro w1 w2 hww
        exact not_samePair_shape (fun hh => hww hh.2.2.2) hne
      · intro a ha b hb
        obtain ⟨w, hw, rfl⟩ := List.mem_map.1 ha
        obtain ⟨v2, hv2, w2, hw2, rfl⟩ := mem_pairsFromVals.1 hb
        have hv : ¬ v = v2 := fun e => (List.nodup_cons.1 hvs).1 (e ▸ hv2)
        exact not_samePair_shape (fun hh => hv hh.2.1) hne

theorem pairwise_crossPairs {p : PStr × List PStr} (hpv : p.2.Nodup) :
    ∀ {rest : ParamSet}, p.1 ∉ rest.map Prod.fst → (rest.map Prod.fst).Nodup →
      (∀ q ∈ rest, q.2.Nodup) →
      List.Pairwise (fun a b => ¬ samePair a b = true) (crossPairs p rest) := by
  intro rest
  induction rest with
  | nil =>
      intro _ _ _
      exact List.Pairwise.nil
  | cons q rest ih =>
      intro hp hn hv
      have hp2 : ¬ p.1 = q.1 ∧ p.1 ∉ rest.map Prod.fst := by
        simp only [List.map_cons, List.mem_cons, not_or] at hp
        exact hp
      have hn2 : q.1 ∉ rest.map Prod.fst ∧ (rest.map Prod.fst).Nodup := by
        simpa [List.nodup_cons] using hn
      rw [crossPairs, List.pairwise_append]
      refine ⟨pairwise_pairsFromVals hp2.1 (hv q (List.mem_cons_self q rest)) hpv,
        ih hp2.2 hn2.2 (fun r hr => hv r (List.mem_cons_of_mem q hr)), ?_⟩
      intro a ha b hb
      obtain ⟨v, hvv, w, hw, rfl⟩ := mem_pairsFromVals.1 ha
      obtain ⟨q2, hq2, hbq⟩ := mem_crossPairs.1 hb
      obtain ⟨v2, hv2, w2, hw2, rfl⟩ := mem_pairsFromVals.1 hbq
      have hq1ne : ¬ q.1 = q2.1 :=
        fun e => hn2.1 (e ▸ List.mem_map.2 ⟨q2, hq2, rfl⟩)
      have hpq2 : ¬ p.1 = q2.1 :=
        fun e => hp2.2 (e ▸ List.mem_map.2 ⟨q2, hq2, rfl⟩)
      exact not_samePair_shape (fun hh => hq1ne hh.2.2.1) hpq2

theorem pairwise_requiredPairs :
    ∀ {ps : ParamSet}, (ps.map Prod.fst).Nodup → (∀ p ∈ ps, p.2.Nodup) →
      List.Pairwise (fun a b => ¬ samePair a b = true) (requiredPairs ps) := by
  intro ps
  induction ps with
  | nil =>
      intro _ _
      exact List.Pairwise.nil
  | cons p rest ih =>
      intro hn hv
      have hp : p.1 ∉ rest.map Prod.fst ∧ (rest.map Prod.fst).Nodup := by
        simpa [List.nodup_cons] using hn
      rw [requiredPairs, List.pairwise_append]
      refine ⟨pairwise_crossPairs (hv p (List.mem_cons_self p rest)) hp.1 hp.2
          (fun r hr => hv r (List.mem_cons_of_mem p hr)),
        ih hp.2 (fun r hr => hv r (List.mem_cons_of_mem p hr)), ?_⟩
      intro a ha b hb
      obtain ⟨q, hq, haq⟩ := mem_crossPairs.1 ha
      obtain ⟨v, hvv, w, hw, rfl⟩ := mem_pairsFromVals.1 haq
      obtain ⟨⟨b11, b12⟩, ⟨b21, b22⟩⟩ := b
      have hbn := mem_requiredPairs_names hb
      have h1 : ¬ p.1 = b11 := fun e => hp.1 (e ▸ hbn.1)
      have h2 : ¬ p.1 = b21 := fun e => hp.1 (e ▸ hbn.2)
      exact not_samePair_shape (fun hh => h1 hh.1) h2

theorem noDupPair_iff :
    ∀ l : List Pair,
      noDupPair l = true ↔ List.Pairwise (fun a b => ¬ samePair a b = true) l := by
  intro l
  induction l with
  | nil => simp [noDupPair]
  | cons u rest ih =>
      simp [noDupPair, List.all_eq_true, List.pairwise_cons, ih, Bool.not_eq_true',
        and_comm]

/-- Claim C4 (spec-modelled pair enumerator): the required-pair universe
has exactly `Σ over i < j of |domain(Pi)| * |domain(Pj)|` entries, and
for a valid parameter set no two entries denote the same unordered pair. -/
theorem required_pairs_universe (ps : ParamSet) (hv : ValidParams ps) :
    (requiredPairs ps).length = specPairCount ps ∧
      noDupPair (requiredPairs ps) = true := by
  refine ⟨requiredPairs_length ps, ?_⟩
  rw [noDupPair_iff]
  exact pairwise_requiredPairs hv.2.1 (fun p hp => (hv.2.2 p hp).2)

/-- Claim C4 witness: the 2x2 parameter set `wps` is valid, its pair
universe has the predicted size, and has no duplicate pairs. -/
theorem required_pairs_universe_witness :
    ValidParams wps ∧ (requiredPairs wps).length = specPairCount wps ∧
      noDupPair (requiredPairs wps) = true :=
  ⟨by decide, (required_pairs_universe wps (by decide)).1,
    (required_pairs_universe wps (by decide)).2⟩

/-! ### Claim about invariant preservation of the state operations -/

theorem validate_values_ok {v : PStr} {l : List PStr} {e : String}
    (h : validate_parameter_values v = (true, l, e)) :
    2 ≤ l.length ∧ l.Nodup := by
  rcases validate_values_cases v with ⟨_, hlen, hnd, heq⟩ | ⟨hf, _, _, _⟩
  · rw [h] at heq
    have hl : l = cleanedValues v := by
      have := congrArg (fun r => r.2.1) heq
      simpa using this
    rw [hl]
    exact ⟨hlen, hnd⟩
  · rw [h] at hf
    cases hf

theorem dict_set_invariant {P : ParamSet} {k : PStr} {v : List PStr}
    (hP : ParamInvariant P) (hlen : 2 ≤ v.length) (hnd : v.Nodup) :
    ParamInvariant (dict_set P k v) := by
  unfold dict_set
  split_ifs with hk
  · constructor
    · have hmap : (P.map (fun q => if q.1 = k then (k, v) else q)).map Prod.fst =
          P.map Prod.fst := by
        rw [List.map_map]
        refine List.map_congr_left ?_
        intro q _
        by_cases hq : q.1 = k
        · simp [hq]
        · simp [hq]
      rw [hmap]
      exact hP.1
    · intro p hp
      obtain ⟨q, hq, hpq⟩ := List.mem_map.1 hp
      by_cases hqk : q.1 = k
      · rw [if_pos hqk] at hpq
        rw [← hpq]
        exact ⟨hlen, hnd⟩
      · rw [if_neg hqk] at hpq
        rw [← hpq]
        exact hP.2 q hq
  · constructor
    · rw [List.map_append]
      simp only [List.map_cons, List.map_nil]
      rw [List.nodup_append]
      exact ⟨hP.1, List.nodup_singleton k, by simpa using hk⟩
    · intro p hp
      rcases List.mem_append.1 hp with h | h
      · exact hP.2 p h
      · simp only [List.mem_singleton] at h
        rw [h]
        exact ⟨hlen, hnd⟩

/-- Claim C7: initialization, Add-Parameter and Update all preserve the
parameter-set invariant — unique names, and at least 2 pairwise-distinct
values per parameter. -/
theorem param_ops_preserve_invariant (P : ParamSet) (n v q w : PStr)
    (h : ParamInvariant P) :
    ParamInvariant (initialize_session_state none) ∧
    ParamInvariant (initialize_session_state (some P)) ∧
    ParamInvariant (add_parameter P n v).1 ∧
    ParamInvariant (update_parameter P q w).1 := by
  refine ⟨by decide, h, ?_, ?_⟩
  · unfold add_parameter
    rcases hname : validate_parameter_name n P with ⟨bn, en⟩
    cases bn
    · exact h
    · rcases hvals : validate_parameter_values v with ⟨bv, lv, ev⟩
      cases bv
      · exact h
      · obtain ⟨hlen, hnd⟩ := validate_values_ok hvals
        exact dict_set_invariant h hlen hnd
  · unfold update_parameter
    rcases hvals : validate_parameter_values w with ⟨bv, lv, ev⟩
    cases bv
    · exact h
    · obtain ⟨hlen, hnd⟩ := validate_values_ok hvals
      exact dict_set_invariant h hlen hnd

/-- Claim C7 witness: the default parameter set satisfies the invariant,
and a concrete add and update keep it. -/
theorem param_ops_preserve_invariant_witness :
    ParamInvariant defaultParameters ∧
    ParamInvariant (initialize_session_state none) ∧
    ParamInvariant (initialize_session_state (some defaultParameters)) ∧
    ParamInvariant
      (add_parameter defaultParameters (pstr "Resolution") (pstr "Low, High")).1 ∧
    ParamInvariant
      (update_parameter defaultParameters (pstr "Color") (pstr "Red, Blue")).1 :=
  ⟨by decide,
    (param_ops_preserve_invariant defaultParameters (pstr "Resolution")
      (pstr "Low, High") (pstr "Color") (pstr "Red, Blue") (by decide)).1,
    (param_ops_preserve_invariant defaultParameters (pstr "Resolution")
      (pstr "Low, High") (pstr "Color") (pstr "Red, Blue") (by decide)).2.1,
    (param_ops_preserve_invariant defaultParameters (pstr "Resolution")
      (pstr "Low, High") (pstr "Color") (pstr "Red, Blue") (by decide)).2.2.1,
    (param_ops_preserve_invariant defaultParameters (pstr "Resolution")
      (pstr "Low, High") (pstr "Color") (pstr "Red, Blue") (by decide)).2.2.2⟩

/-! ### Claim about generation completeness -/

theorem coversPair_iff {t : TestCase} {u : Pair} :
    coversPair t u = true ↔ ∃ w ∈ assignPairs t, samePair u w = true := by
  simp [coversPair, List.any_eq_true]

theorem buildLoop_acc_mem (ps : ParamSet) :
    ∀ (fuel : Nat) (uncovered : List Pair) (acc s : List TestCase),
      buildLoop ps fuel uncovered acc = some s → ∀ t ∈ acc, t ∈ s := by
  intro fuel
  induction fuel with
  | zero =>
      intro uncovered acc s h t ht
      rw [buildLoop] at h
      split_ifs at h with h1
      · cases h
        exact List.mem_reverse.2 ht
  | succ fuel ih =>
      intro uncovered acc s h t ht
      rw [buildLoop] at h
      split_ifs at h with h1
      · cases h
        exact List.mem_reverse.2 ht
      · exact ih _ _ s h t (List.mem_cons_of_mem _ ht)

theorem buildLoop_covers (ps : ParamSet) :
    ∀ (fuel : Nat) (uncovered : List Pair) (acc s : List TestCase),
      buildLoop ps fuel uncovered acc = some s →
      ∀ u ∈ uncovered, ∃ t ∈ s, coversPair t u = true := by
  intro fuel
  induction fuel with
  | zero =>
      intro uncovered acc s h u hu
      rw [buildLoop] at h
      split_ifs at h with h1
      · rw [h1] at hu
        cases hu
  | succ fuel ih =>
      intro uncovered acc s h u hu
      rw [buildLoop] at h
      split_ifs at h with h1
      · rw [h1] at hu
        cases hu
      · by_cases hc : coversPair (buildAssigns uncovered [] ps) u = true
        · refine ⟨buildAssigns uncovered [] ps, ?_, hc⟩
          exact buildLoop_acc_mem ps fuel _ _ s h _ (List.mem_cons_self _ _)
        · refine ih _ _ s h u ?_
          refine List.mem_filter.2 ⟨hu, ?_⟩
          simp [hc]

theorem argmax_mem (g : PStr → Nat) :
    ∀ (l : List PStr) (b : PStr),
      (l.foldl (fun best w => if g w > g best then w else best) b) = b ∨
      (l.foldl (fun best w => if g w > g best then w else best) b) ∈ l := by
  intro l
  induction l with
  | nil =>
      intro b
      exact Or.inl rfl
  | cons w l ih =>
      intro b
      simp only [List.foldl_cons]
      rcases ih (if g w > g b then w else b) with h | h
      · rw [h]
        split_ifs with hgt
        · exact Or.inr (List.mem_cons_self _ _)
        · exact Or.inl rfl
      · exact Or.inr (List.mem_cons_of_mem _ h)

theorem pickValue_mem {uncovered : List Pair} {chosen : List Assign} {nm : PStr}
    {vs : List PStr} (h : vs ≠ []) :
    pickValue uncovered chosen nm vs ∈ vs := by
  cases vs with
  | nil => exact absurd rfl h
  | cons v rest =>
      have he : pickValue uncovered chosen nm (v :: rest) =
          rest.foldl
            (fun best w =>
              if valueScore uncovered chosen nm w > valueScore uncovered chosen nm best
              then w else best) v := rfl
      rw [he]
      rcases argmax_mem (valueScore uncovered chosen nm) rest v with h1 | h1
      · rw [h1]
        exact List.mem_cons_self _ _
      · exact List.mem_cons_of_mem _ h1

theorem buildAssigns_aligned (uncovered : List Pair) :
    ∀ (ps : ParamSet) (chosen : List Assign), (∀ p ∈ ps, p.2 ≠ []) →
      Aligned ps (buildAssigns uncovered chosen ps) := by
  intro ps
  induction ps with
  | nil =>
      intro chosen _
      exact Aligned.nil
  | cons p rest ih =>
      intro chosen hne
      rw [buildAssigns]
      exact Aligned.cons
        (pickValue_mem (hne p (List.mem_cons_self p rest)))
        (ih _ (fun q hq => hne q (List.mem_cons_of_mem p hq)))

theorem buildLoop_aligned (ps : ParamSet) (hne : ∀ p ∈ ps, p.2 ≠ []) :
    ∀ (fuel : Nat) (uncovered : List Pair) (acc s : List TestCase),
      (∀ t ∈ acc, Aligned ps t) → buildLoop ps fuel uncovered acc = some s →
      ∀ t ∈ s, Aligned ps t := by
  intro fuel
  induction fuel with
  | zero =>
      intro uncovered acc s hacc h t ht
      rw [buildLoop] at h
      split_ifs at h with h1
      · cases h
        exact hacc t (List.mem_reverse.1 ht)
  | succ fuel ih =>
      intro uncovered acc s hacc h t ht
      rw [buildLoop] at h
      split_ifs at h with h1
      · cases h
        exact hacc t (List.mem_reverse.1 ht)
      · refine ih _ _ s ?_ h t ht
        intro t2 ht2
        rcases List.mem_cons.1 ht2 with h2 | h2
        · rw [h2]
          exact buildAssigns_aligned uncovered ps [] hne
        · exact hacc t2 h2

theorem aligned_mem :
    ∀ {ps : ParamSet} {t : List Assign}, Aligned ps t →
      ∀ b ∈ t, ∃ q ∈ ps, b.1 = q.1 ∧ b.2 ∈ q.2 := by
  intro ps t h
  induction h with
  | nil =>
      intro b hb
      cases hb
  | cons hv ht ih =>
      intro b hb
      rcases List.mem_cons.1 hb with h2 | h2
      · rw [h2]
        exact ⟨_, List.mem_cons_self _ _, rfl, hv⟩
      · obtain ⟨q, hq, hbq⟩ := ih b h2
        exact ⟨q, List.mem_cons_of_mem _ hq, hbq⟩

theorem assignPairs_sub_required :
    ∀ {ps : ParamSet} {t : List Assign}, Aligned ps t →
      ∀ u ∈ assignPairs t, u ∈ requiredPairs ps := by
  intro ps t h
  induction h with
  | nil =>
      intro u hu
      cases hu
  | @cons p rest v t2 hv ht ih =>
      intro u hu
      rw [requiredPairs, List.mem_append]
      rcases List.mem_append.1 hu with h2 | h2
      · obtain ⟨b, hb, rfl⟩ := List.mem_map.1 h2
        obtain ⟨q, hq, hb1, hb2⟩ := aligned_mem ht b hb
        refine Or.inl (mem_crossPairs.2 ⟨q, hq, mem_pairsFromVals.2 ⟨v, hv, b.2, hb2, ?_⟩⟩)
        rw [← hb1]
      · exact Or.inr (ih u h2)

theorem fold_mem_mono {u : Pair} :
    ∀ (tp : List Pair) (s : List Pair) (c : Nat), memPair u s = true →
      memPair u ((tp.foldl coverStep (s, c)).1) = true := by
  intro tp
  induction tp with
  | nil =>
      intro s c h
      exact h
  | cons w tp ih =>
      intro s c h
      simp only [List.foldl_cons]
      rw [show coverStep (s, c) w =
            if memPair w s then (s, c) else (s ++ [w], c + 1) from rfl]
      split_ifs with hw
      · exact ih s c h
      · refine ih _ _ ?_
        rw [memPair] at h ⊢
        rw [List.any_append]
        simp [h]

theorem fold_covers_elem {w : Pair} :
    ∀ (tp : List Pair) (s : List Pair) (c : Nat), w ∈ tp →
      memPair w ((tp.foldl coverStep (s, c)).1) = true := by
  intro tp
  induction tp with
  | nil =>
      intro s c h
      cases h
  | cons w0 tp ih =>
      intro s c h
      simp only [List.foldl_cons]
      rw [show coverStep (s, c) w0 =
            if memPair w0 s then (s, c) else (s ++ [w0], c + 1) from rfl]
      rcases List.mem_cons.1 h with h1 | h1
      · subst h1
        split_ifs with hw
        · exact fold_mem_mono tp s c hw
        · refine fold_mem_mono tp _ _ ?_
          rw [memPair, List.any_append]
          simp [memPair, samePair_refl]
      · split_ifs with hw
        · exact ih s c h1
        · exact ih _ _ h1

theorem fold_sub {u : Pair} :
    ∀ (tp : List Pair) (s : List Pair) (c : Nat),
      u ∈ (tp.foldl coverStep (s, c)).1 → u ∈ s ∨ u ∈ tp := by
  intro tp
  induction tp with
  | nil =>
      intro s c h
      exact Or.inl h
  | cons w tp ih =>
      intro s c h
      simp only [List.foldl_cons] at h
      rw [show coverStep (s, c) w =
            if memPair w s then (s, c) else (s ++ [w], c + 1) from rfl] at h
      split_ifs at h with hw
      · rcases ih s c h with h1 | h1
        · exact Or.inl h1
        · exact Or.inr (List.mem_cons_of_mem _ h1)
      · rcases ih _ _ h with h1 | h1
        · rcases List.mem_append.1 h1 with h2 | h2
          · exact Or.inl h2
          · simp only [List.mem_singleton] at h2
            exact Or.inr (h2 ▸ List.mem_cons_self _ _)
        · exact Or.inr (List.mem_cons_of_mem _ h1)

theorem analyzeAux_mono {u : Pair} :
    ∀ (tests : List TestCase) (seen : List Pair), memPair u seen = true →
      memPair u (analyzeAux tests seen).1 = true := by
  intro tests
  induction tests with
  | nil =>
      intro seen h
      exact h
  | cons t rest ih =>
      intro seen h
      simp only [analyzeAux]
      exact ih _ (fold_mem_mono (assignPairs t) seen 0 h)

theorem analyzeAux_covers {w : Pair} :
    ∀ (tests : List TestCase) (seen : List Pair) (t : TestCase), t ∈ tests →
      w ∈ assignPairs t → memPair w (analyzeAux tests seen).1 = true := by
  intro tests
  induction tests with
  | nil =>
      intro seen t ht _
      cases ht
  | cons t0 rest ih =>
      intro seen t ht hw
      simp only [analyzeAux]
      rcases List.mem_cons.1 ht with h1 | h1
      · subst h1
        exact analyzeAux_mono rest _ (fold_covers_elem (assignPairs t) seen 0 hw)
      · exact ih _ t h1 hw

theorem analyzeAux_sub {u : Pair} :
    ∀ (tests : List TestCase) (seen : List Pair),
      u ∈ (analyzeAux tests seen).1 → u ∈ seen ∨ ∃ t ∈ tests, u ∈ assignPairs t := by
  intro tests
  induction tests with
  | nil =>
      intro seen h
      exact Or.inl h
  | cons t rest ih =>
      intro seen h
      simp only [analyzeAux] at h
      rcases ih _ h with h1 | ⟨t2, ht2, h2⟩
      · rcases fold_sub (assignPairs t) seen 0 h1 with h2 | h2
        · exact Or.inl h2
        · exact Or.inr ⟨t, List.mem_cons_self _ _, h2⟩
      · exact Or.inr ⟨t2, List.mem_cons_of_mem _ ht2, h2⟩

/-- Claim C1 (spec-modelled generator): for a valid parameter set, after
a successful generation the covered-pair set computed by the coverage
analysis equals the full required-pair universe — every required pair is
covered, and nothing outside the universe is reported. -/
theorem generation_completeness (ps : ParamSet) (suite : List TestCase)
    (req : List Pair) (hv : ValidParams ps)
    (h : find_minimum_test_suite ps = some (suite, req)) :
    coversExactly suite req ps = true := by
  unfold find_minimum_test_suite at h
  split_ifs at h with hpre
  · rw [Option.map_eq_some'] at h
    obtain ⟨s, hbl, hf⟩ := h
    have hsuite : s = suite := congrArg Prod.fst hf
    have hreq : requiredPairs ps = req := congrArg Prod.snd hf
    subst hsuite
    subst hreq
    have hne : ∀ p ∈ ps, p.2 ≠ [] := by
      intro p hp
      have := (hv.2.2 p hp).1
      intro he
      rw [he] at this
      simp at this
    unfold coversExactly count_unique_pairs
    rw [Bool.and_eq_true, List.all_eq_true, List.all_eq_true]
    constructor
    · intro u hu
      rcases analyzeAux_sub s [] hu with h1 | ⟨t, ht, h2⟩
      · cases h1
      · have halig : Aligned ps t :=
          buildLoop_aligned ps hne _ _ _ s (fun _ ht2 => absurd ht2 (by simp)) hbl t ht
        exact memPair_of_mem (assignPairs_sub_required halig u h2)
    · intro u hu
      obtain ⟨t, ht, hc⟩ :=
        buildLoop_covers ps (requiredPairs ps).length (requiredPairs ps) [] s hbl u hu
      obtain ⟨w, hw, hsw⟩ := coversPair_iff.1 hc
      exact memPair_up hsw (analyzeAux_covers s [] t ht hw)

/-- Claim C1 witness: the generator succeeds on the concrete 2x2
parameter set `wps`, producing `wSuite`, whose coverage equals the full
pair universe. -/
theorem generation_completeness_witness :
    ValidParams wps ∧
    find_minimum_test_suite wps = some (wSuite, requiredPairs wps) ∧
    coversExactly wSuite (requiredPairs wps) wps = true :=
  ⟨by decide, by decide,
    generation_completeness wps wSuite (requiredPairs wps) (by decide) (by decide)⟩
